import Mathlib

/-!
Shallow embedding of the Ascon AEAD core (`src/asconcore.rs`).

Machine `u64` words are modelled as `Nat` kept below `2 ^ 64`; bitwise
negation is XOR with the all-ones mask.  Byte buffers are `List Nat`
with entries below `256`.  The two parameter sets (`Parameters128`,
rate 8, and `Parameters128A`, rate 16) are embedded as the two
monomorphisations of the generic Rust code, with the shared
`permute`/`processFinal` dispatch kept parametric in the rate.
-/

namespace Ascon

/-- All-ones 64-bit mask, used to model bitwise NOT on `u64`. -/
def mask64 : Nat := 2 ^ 64 - 1

/-- Bitwise NOT on a 64-bit word (`!x` in Rust). -/
def not64 (x : Nat) : Nat := x ^^^ mask64

/-- Right rotation of a 64-bit word (`u64::rotate_right`). -/
def rotr (x n : Nat) : Nat := ((x >>> n) ||| (x <<< (64 - n))) &&& mask64

/-- The state of Ascon's permutation: five 64-bit words (`State`). -/
structure AState where
  x0 : Nat
  x1 : Nat
  x2 : Nat
  x3 : Nat
  x4 : Nat
  deriving DecidableEq, Repr

attribute [ext] AState

/-- One round of the permutation with round constant `c` (`State::round`). -/
def round (s : AState) (c : Nat) : AState :=
  let x0 := s.x0 ^^^ s.x4
  let x2 := s.x2 ^^^ (s.x1 ^^^ c)
  let x4 := s.x4 ^^^ s.x3
  let tx0 := x0 ^^^ (not64 s.x1 &&& x2)
  let tx1 := s.x1 ^^^ (not64 x2 &&& s.x3)
  let tx2 := x2 ^^^ (not64 s.x3 &&& x4)
  let tx3 := s.x3 ^^^ (not64 x4 &&& x0)
  let tx4 := x4 ^^^ (not64 x0 &&& s.x1)
  let ty1 := tx1 ^^^ tx0
  let ty3 := tx3 ^^^ tx2
  let ty0 := tx0 ^^^ tx4
  let z0 := ty0 ^^^ rotr ty0 9
  let z1 := ty1 ^^^ rotr ty1 22
  let z2 := tx2 ^^^ rotr tx2 5
  let z3 := ty3 ^^^ rotr ty3 7
  let z4 := tx4 ^^^ rotr tx4 34
  { x0 := ty0 ^^^ rotr z0 19
    x1 := ty1 ^^^ rotr z1 39
    x2 := not64 (tx2 ^^^ rotr z2 1)
    x3 := ty3 ^^^ rotr z3 10
    x4 := tx4 ^^^ rotr z4 7 }

/-- Permutation with 12 rounds (`State::permute_12`). -/
def permute12 (s : AState) : AState :=
  round (round (round (round (round (round (round (round (round (round (round
    (round s 0xf0) 0xe1) 0xd2) 0xc3) 0xb4) 0xa5) 0x96) 0x87) 0x78) 0x69) 0x5a) 0x4b

/-- Permutation with 8 rounds (`State::permute_8`). -/
def permute8 (s : AState) : AState :=
  round (round (round (round (round (round (round
    (round s 0xb4) 0xa5) 0x96) 0x87) 0x78) 0x69) 0x5a) 0x4b

/-- Permutation with 6 rounds (`State::permute_6`). -/
def permute6 (s : AState) : AState :=
  round (round (round (round (round (round s 0x96) 0x87) 0x78) 0x69) 0x5a) 0x4b

/-- Intermediate permutation dispatch on the rate (`State::permute`):
6 rounds for `COUNT = 8`, otherwise 8 rounds. -/
def permute (count : Nat) (s : AState) : AState :=
  if count = 8 then permute6 s else permute8 s

/-- Padding word for a partial block of `n` real bytes (`pad`). -/
def pad (n : Nat) : Nat := 0x80 <<< (56 - 8 * n)

/-- Clearing helper used by in-place decryption (`clear`). -/
def clear (w n : Nat) : Nat := w &&& (0x00ffffffffffffff >>> (n * 8 - 8))

/-- Big-endian interpretation of a byte list as an unsigned integer
(`byteorder`'s `read_u64::<BigEndian>` / `read_uint::<BigEndian>`). -/
def beWord (bs : List Nat) : Nat := bs.foldl (fun acc b => acc * 256 + b) 0

/-- Big-endian serialization of the low `n` bytes of a value
(`byteorder`'s `write_u64::<BigEndian>` / `write_uint::<BigEndian>`). -/
def beBytes : Nat → Nat → List Nat
  | 0, _ => []
  | n + 1, v => (v >>> (8 * n)) % 256 :: beBytes n v

/-- Initialization vector of `Parameters128` (rate 8). -/
def iv128 : Nat := 0x80400c0600000000

/-- Initialization vector of `Parameters128A` (rate 16). -/
def iv128a : Nat := 0x80800c0800000000

/-- Core of one Ascon operation: permutation state plus the two retained
key words (`Core`). -/
structure Core where
  state : AState
  key1 : Nat
  key2 : Nat
  deriving DecidableEq, Repr

/-- Construction of a core from key and nonce (`Core::new`): state is
`[IV, k1, k2, n1, n2]`, 12-round permutation, then key XORed into `x3, x4`. -/
def Core.new (iv : Nat) (key nonce : List Nat) : Core :=
  let key1 := beWord (key.take 8)
  let key2 := beWord (key.drop 8)
  let s : AState :=
    { x0 := iv
      x1 := key1
      x2 := key2
      x3 := beWord (nonce.take 8)
      x4 := beWord (nonce.drop 8) }
  let s := permute12 s
  { state := { s with x3 := s.x3 ^^^ key1, x4 := s.x4 ^^^ key2 }
    key1 := key1
    key2 := key2 }

/-- Block loop of associated-data absorption for rate 8
(`Core::process_associated_data`, `P::COUNT = 8`, nonempty input). -/
def adBlocks8 (s : AState) (ad : List Nat) : AState :=
  if h : 8 ≤ ad.length then
    adBlocks8 (permute 8 { s with x0 := s.x0 ^^^ beWord (ad.take 8) }) (ad.drop 8)
  else
    let len := ad.length
    let px := s.x0 ^^^ pad len
    let px := if 0 < len then px ^^^ (beWord ad <<< ((8 - len) * 8)) else px
    permute 8 { s with x0 := px }
termination_by ad.length
decreasing_by simp only [List.length_drop]; omega

/-- Block loop of associated-data absorption for rate 16
(`Core::process_associated_data`, `P::COUNT = 16`, nonempty input). -/
def adBlocks16 (s : AState) (ad : List Nat) : AState :=
  if h : 16 ≤ ad.length then
    adBlocks16
      (permute 16
        { s with
          x0 := s.x0 ^^^ beWord (ad.take 8)
          x1 := s.x1 ^^^ beWord ((ad.drop 8).take 8) })
      (ad.drop 16)
  else if 8 ≤ ad.length then
    let s' := { s with x0 := s.x0 ^^^ beWord (ad.take 8) }
    let rest := ad.drop 8
    let len := rest.length
    let px := s'.x1 ^^^ pad len
    let px := if 0 < len then px ^^^ (beWord rest <<< ((8 - len) * 8)) else px
    permute 16 { s' with x1 := px }
  else
    let len := ad.length
    let px := s.x0 ^^^ pad len
    let px := if 0 < len then px ^^^ (beWord ad <<< ((8 - len) * 8)) else px
    permute 16 { s with x0 := px }
termination_by ad.length
decreasing_by simp only [List.length_drop]; omega

/-- Associated-data absorption for rate 8, including the skip of empty
input and the unconditional domain-separation XOR into `x4`. -/
def processAssociatedData8 (s : AState) (ad : List Nat) : AState :=
  let s' := if 0 < ad.length then adBlocks8 s ad else s
  { s' with x4 := s'.x4 ^^^ 1 }

/-- Associated-data absorption for rate 16, including the skip of empty
input and the unconditional domain-separation XOR into `x4`. -/
def processAssociatedData16 (s : AState) (ad : List Nat) : AState :=
  let s' := if 0 < ad.length then adBlocks16 s ad else s
  { s' with x4 := s'.x4 ^^^ 1 }

/-- In-place encryption of the message for rate 8
(`Core::process_encrypt_inplace`, `P::COUNT = 8`): returns the new
state and the ciphertext bytes written back into the buffer. -/
def processEncryptInplace8 (s : AState) (m : List Nat) : AState × List Nat :=
  if h : 8 ≤ m.length then
    let w := s.x0 ^^^ beWord (m.take 8)
    let r := processEncryptInplace8 (permute 8 { s with x0 := w }) (m.drop 8)
    (r.1, beBytes 8 w ++ r.2)
  else
    let len := m.length
    let px := s.x0 ^^^ pad len
    if 0 < len then
      let px := px ^^^ (beWord m <<< ((8 - len) * 8))
      ({ s with x0 := px }, beBytes len (px >>> ((8 - len) * 8)))
    else
      ({ s with x0 := px }, [])
termination_by m.length
decreasing_by simp only [List.length_drop]; omega

/-- In-place encryption of the message for rate 16
(`Core::process_encrypt_inplace`, `P::COUNT = 16`). -/
def processEncryptInplace16 (s : AState) (m : List Nat) : AState × List Nat :=
  if h : 16 ≤ m.length then
    let w0 := s.x0 ^^^ beWord (m.take 8)
    let w1 := s.x1 ^^^ beWord ((m.drop 8).take 8)
    let r := processEncryptInplace16 (permute 16 { s with x0 := w0, x1 := w1 }) (m.drop 16)
    (r.1, beBytes 8 w0 ++ beBytes 8 w1 ++ r.2)
  else if h8 : 8 ≤ m.length then
    let w0 := s.x0 ^^^ beWord (m.take 8)
    let s' := { s with x0 := w0 }
    let rest := m.drop 8
    let len := rest.length
    let px := s'.x1 ^^^ pad len
    if 0 < len then
      let px := px ^^^ (beWord rest <<< ((8 - len) * 8))
      ({ s' with x1 := px }, beBytes 8 w0 ++ beBytes len (px >>> ((8 - len) * 8)))
    else
      ({ s' with x1 := px }, beBytes 8 w0)
  else
    let len := m.length
    let px := s.x0 ^^^ pad len
    if 0 < len then
      let px := px ^^^ (beWord m <<< ((8 - len) * 8))
      ({ s with x0 := px }, beBytes len (px >>> ((8 - len) * 8)))
    else
      ({ s with x0 := px }, [])
termination_by m.length
decreasing_by simp only [List.length_drop]; omega

/-- In-place decryption of the ciphertext for rate 8
(`Core::process_decrypt_inplace`, `P::COUNT = 8`): returns the new
state and the candidate plaintext written back into the buffer. -/
def processDecryptInplace8 (s : AState) (ct : List Nat) : AState × List Nat :=
  if h : 8 ≤ ct.length then
    let cx := beWord (ct.take 8)
    let r := processDecryptInplace8 (permute 8 { s with x0 := cx }) (ct.drop 8)
    (r.1, beBytes 8 (s.x0 ^^^ cx) ++ r.2)
  else
    let len := ct.length
    let px := s.x0 ^^^ pad len
    if 0 < len then
      let cx := beWord ct <<< ((8 - len) * 8)
      let px := px ^^^ cx
      ({ s with x0 := clear px len ^^^ cx }, beBytes len (px >>> ((8 - len) * 8)))
    else
      ({ s with x0 := px }, [])
termination_by ct.length
decreasing_by simp only [List.length_drop]; omega

/-- In-place decryption of the ciphertext for rate 16
(`Core::process_decrypt_inplace`, `P::COUNT = 16`). -/
def processDecryptInplace16 (s : AState) (ct : List Nat) : AState × List Nat :=
  if h : 16 ≤ ct.length then
    let cx0 := beWord (ct.take 8)
    let cx1 := beWord ((ct.drop 8).take 8)
    let r := processDecryptInplace16 (permute 16 { s with x0 := cx0, x1 := cx1 }) (ct.drop 16)
    (r.1, beBytes 8 (s.x0 ^^^ cx0) ++ beBytes 8 (s.x1 ^^^ cx1) ++ r.2)
  else if h8 : 8 ≤ ct.length then
    let cx0 := beWord (ct.take 8)
    let p0 := beBytes 8 (s.x0 ^^^ cx0)
    let s' := { s with x0 := cx0 }
    let rest := ct.drop 8
    let len := rest.length
    let px := s'.x1 ^^^ pad len
    if 0 < len then
      let cx := beWord rest <<< ((8 - len) * 8)
      let px := px ^^^ cx
      ({ s' with x1 := clear px len ^^^ cx }, p0 ++ beBytes len (px >>> ((8 - len) * 8)))
    else
      ({ s' with x1 := px }, p0)
  else
    let len := ct.length
    let px := s.x0 ^^^ pad len
    if 0 < len then
      let cx := beWord ct <<< ((8 - len) * 8)
      let px := px ^^^ cx
      ({ s with x0 := clear px len ^^^ cx }, beBytes len (px >>> ((8 - len) * 8)))
    else
      ({ s with x0 := px }, [])
termination_by ct.length
decreasing_by simp only [List.length_drop]; omega

/-- Finalization (`Core::process_final`): key injection depending on the
rate, 12-round permutation, then key XOR into `x3` and `x4`. -/
def processFinal (count : Nat) (c : Core) : AState :=
  let s := c.state
  let s :=
    if count = 8 then { s with x1 := s.x1 ^^^ c.key1, x2 := s.x2 ^^^ c.key2 }
    else if count = 16 then { s with x2 := s.x2 ^^^ c.key1, x3 := s.x3 ^^^ c.key2 }
    else s
  let s := permute12 s
  { s with x3 := s.x3 ^^^ c.key1, x4 := s.x4 ^^^ c.key2 }

/-- The single error kind of the library (`aead::Error`, raised only on
tag mismatch). -/
inductive AsconError where
  | authenticationFailure
  deriving DecidableEq, Repr

/-- Tag extraction: final `x3` and `x4`, each serialized big-endian. -/
def tagBytes (s : AState) : List Nat := beBytes 8 s.x3 ++ beBytes 8 s.x4

/-- One-shot in-place encryption for rate 8 (`Core::encrypt_inplace`):
returns the ciphertext left in the buffer and the 16-byte tag. -/
def encryptInplace8 (c : Core) (m ad : List Nat) : List Nat × List Nat :=
  let s := processAssociatedData8 c.state ad
  let r := processEncryptInplace8 s m
  (r.2, tagBytes (processFinal 8 { c with state := r.1 }))

/-- One-shot in-place encryption for rate 16 (`Core::encrypt_inplace`). -/
def encryptInplace16 (c : Core) (m ad : List Nat) : List Nat × List Nat :=
  let s := processAssociatedData16 c.state ad
  let r := processEncryptInplace16 s m
  (r.2, tagBytes (processFinal 16 { c with state := r.1 }))

/-- One-shot in-place decryption for rate 8 (`Core::decrypt_inplace`):
returns the candidate plaintext left in the buffer and the result of the
tag comparison. -/
def decryptInplace8 (c : Core) (ct ad etag : List Nat) :
    List Nat × Except AsconError Unit :=
  let s := processAssociatedData8 c.state ad
  let r := processDecryptInplace8 s ct
  let tag := tagBytes (processFinal 8 { c with state := r.1 })
  (r.2, if tag = etag then Except.ok () else Except.error AsconError.authenticationFailure)

/-- One-shot in-place decryption for rate 16 (`Core::decrypt_inplace`). -/
def decryptInplace16 (c : Core) (ct ad etag : List Nat) :
    List Nat × Except AsconError Unit :=
  let s := processAssociatedData16 c.state ad
  let r := processDecryptInplace16 s ct
  let tag := tagBytes (processFinal 16 { c with state := r.1 })
  (r.2, if tag = etag then Except.ok () else Except.error AsconError.authenticationFailure)

/-- The tag recomputed by rate-8 decryption, before the comparison. -/
def decryptTag8 (c : Core) (ct ad : List Nat) : List Nat :=
  let s := processAssociatedData8 c.state ad
  let r := processDecryptInplace8 s ct
  tagBytes (processFinal 8 { c with state := r.1 })

/-- The tag recomputed by rate-16 decryption, before the comparison. -/
def decryptTag16 (c : Core) (ct ad : List Nat) : List Nat :=
  let s := processAssociatedData16 c.state ad
  let r := processDecryptInplace16 s ct
  tagBytes (processFinal 16 { c with state := r.1 })

/-! Reference data and spec-worded round, used to check the source round
function against the specification text. -/

/-- The 12-round constant schedule, in application order. -/
def roundConstants : List Nat :=
  [0xf0, 0xe1, 0xd2, 0xc3, 0xb4, 0xa5, 0x96, 0x87, 0x78, 0x69, 0x5a, 0x4b]

/-- Spec-worded constant addition and input mixing of the s-box layer:
`x0 ^= x4; x2 ^= (x1 ^ c); x4 ^= x3`. -/
def specSbox (s : AState) (c : Nat) : AState :=
  { s with x0 := s.x0 ^^^ s.x4, x2 := s.x2 ^^^ (s.x1 ^^^ c), x4 := s.x4 ^^^ s.x3 }

/-- Word selector `x_i` for the spec's indices-mod-5 formulation. -/
def wsel (s : AState) : Nat → Nat
  | 0 => s.x0
  | 1 => s.x1
  | 2 => s.x2
  | 3 => s.x3
  | _ => s.x4

/-- The spec's per-word rotation pairs `(r1, r2)`. -/
def rotAmounts : Nat → Nat × Nat
  | 0 => (9, 19)
  | 1 => (22, 39)
  | 2 => (5, 1)
  | 3 => (7, 10)
  | _ => (34, 7)

/-- The spec's linear-layer step: `x_i = t_i ^ rotr(t_i, r1)` followed by
`x_i = t_i ^ rotr(x_i, r2)`. -/
def linStep (t i : Nat) : Nat :=
  let a := t ^^^ rotr t (rotAmounts i).1
  t ^^^ rotr a (rotAmounts i).2

/-- The round function as the specification words it: s-box input mixing,
`t_i = x_i ^ (NOT x_(i+1) AND x_(i+2))` with indices mod 5, the three
`t` XORs, the linear layer from the rotation pairs, and `x2` inverted. -/
def specRound (s : AState) (c : Nat) : AState :=
  let u := specSbox s c
  let t := fun i => wsel u i ^^^ (not64 (wsel u ((i + 1) % 5)) &&& wsel u ((i + 2) % 5))
  let t1 := t 1 ^^^ t 0
  let t3 := t 3 ^^^ t 2
  let t0 := t 0 ^^^ t 4
  { x0 := linStep t0 0
    x1 := linStep t1 1
    x2 := not64 (linStep (t 2) 2)
    x3 := linStep t3 3
    x4 := linStep (t 4) 4 }

/-! Checked mirrors that model the panicking `usize` subtractions inside
`pad` (`56 - 8 * n`) and `clear` (`n * 8 - 8`): a Rust underflow becomes
`none`. -/

/-- Subtraction as Rust computes it on `usize`: `none` models the panic. -/
def checkedSub (a b : Nat) : Option Nat := if b ≤ a then some (a - b) else none

/-- `pad` with the panicking shift-amount subtraction made explicit. -/
def padChk (n : Nat) : Option Nat := (checkedSub 56 (8 * n)).map (fun k => 0x80 <<< k)

/-- `clear` with the panicking shift-amount subtraction made explicit. -/
def clearChk (w n : Nat) : Option Nat :=
  (checkedSub (n * 8) 8).map (fun k => w &&& (0x00ffffffffffffff >>> k))

/-- `adBlocks8` through the checked helpers. -/
def adBlocks8Chk (s : AState) (ad : List Nat) : Option AState :=
  if h : 8 ≤ ad.length then
    adBlocks8Chk (permute 8 { s with x0 := s.x0 ^^^ beWord (ad.take 8) }) (ad.drop 8)
  else do
    let p ← padChk ad.length
    let px := s.x0 ^^^ p
    let px := if 0 < ad.length then px ^^^ (beWord ad <<< ((8 - ad.length) * 8)) else px
    pure (permute 8 { s with x0 := px })
termination_by ad.length
decreasing_by simp only [List.length_drop]; omega

/-- `adBlocks16` through the checked helpers. -/
def adBlocks16Chk (s : AState) (ad : List Nat) : Option AState :=
  if h : 16 ≤ ad.length then
    adBlocks16Chk
      (permute 16
        { s with
          x0 := s.x0 ^^^ beWord (ad.take 8)
          x1 := s.x1 ^^^ beWord ((ad.drop 8).take 8) })
      (ad.drop 16)
  else if 8 ≤ ad.length then do
    let s' := { s with x0 := s.x0 ^^^ beWord (ad.take 8) }
    let rest := ad.drop 8
    let p ← padChk rest.length
    let px := s'.x1 ^^^ p
    let px := if 0 < rest.length then px ^^^ (beWord rest <<< ((8 - rest.length) * 8)) else px
    pure (permute 16 { s' with x1 := px })
  else do
    let p ← padChk ad.length
    let px := s.x0 ^^^ p
    let px := if 0 < ad.length then px ^^^ (beWord ad <<< ((8 - ad.length) * 8)) else px
    pure (permute 16 { s with x0 := px })
termination_by ad.length
decreasing_by simp only [List.length_drop]; omega

/-- `processAssociatedData8` through the checked helpers. -/
def processAssociatedData8Chk (s : AState) (ad : List Nat) : Option AState := do
  let s' ← if 0 < ad.length then adBlocks8Chk s ad else pure s
  pure { s' with x4 := s'.x4 ^^^ 1 }

/-- `processAssociatedData16` through the checked helpers. -/
def processAssociatedData16Chk (s : AState) (ad : List Nat) : Option AState := do
  let s' ← if 0 < ad.length then adBlocks16Chk s ad else pure s
  pure { s' with x4 := s'.x4 ^^^ 1 }

/-- `processEncryptInplace8` through the checked helpers. -/
def processEncryptInplace8Chk (s : AState) (m : List Nat) :
    Option (AState × List Nat) :=
  if h : 8 ≤ m.length then do
    let w := s.x0 ^^^ beWord (m.take 8)
    let r ← processEncryptInplace8Chk (permute 8 { s with x0 := w }) (m.drop 8)
    pure (r.1, beBytes 8 w ++ r.2)
  else do
    let p ← padChk m.length
    let px := s.x0 ^^^ p
    if 0 < m.length then
      let px := px ^^^ (beWord m <<< ((8 - m.length) * 8))
      pure ({ s with x0 := px }, beBytes m.length (px >>> ((8 - m.length) * 8)))
    else
      pure ({ s with x0 := px }, [])
termination_by m.length
decreasing_by simp only [List.length_drop]; omega

/-- `processEncryptInplace16` through the checked helpers. -/
def processEncryptInplace16Chk (s : AState) (m : List Nat) :
    Option (AState × List Nat) :=
  if h : 16 ≤ m.length then do
    let w0 := s.x0 ^^^ beWord (m.take 8)
    let w1 := s.x1 ^^^ beWord ((m.drop 8).take 8)
    let r ← processEncryptInplace16Chk (permute 16 { s with x0 := w0, x1 := w1 })
      (m.drop 16)
    pure (r.1, beBytes 8 w0 ++ beBytes 8 w1 ++ r.2)
  else if h8 : 8 ≤ m.length then do
    let w0 := s.x0 ^^^ beWord (m.take 8)
    let s' := { s with x0 := w0 }
    let rest := m.drop 8
    let p ← padChk rest.length
    let px := s'.x1 ^^^ p
    if 0 < rest.length then
      let px := px ^^^ (beWord rest <<< ((8 - rest.length) * 8))
      pure ({ s' with x1 := px },
        beBytes 8 w0 ++ beBytes rest.length (px >>> ((8 - rest.length) * 8)))
    else
      pure ({ s' with x1 := px }, beBytes 8 w0)
  else do
    let p ← padChk m.length
    let px := s.x0 ^^^ p
    if 0 < m.length then
      let px := px ^^^ (beWord m <<< ((8 - m.length) * 8))
      pure ({ s with x0 := px }, beBytes m.length (px >>> ((8 - m.length) * 8)))
    else
      pure ({ s with x0 := px }, [])
termination_by m.length
decreasing_by simp only [List.length_drop]; omega

/-- `processDecryptInplace8` through the checked helpers. -/
def processDecryptInplace8Chk (s : AState) (ct : List Nat) :
    Option (AState × List Nat) :=
  if h : 8 ≤ ct.length then do
    let cx := beWord (ct.take 8)
    let r ← processDecryptInplace8Chk (permute 8 { s with x0 := cx }) (ct.drop 8)
    pure (r.1, beBytes 8 (s.x0 ^^^ cx) ++ r.2)
  else do
    let p ← padChk ct.length
    let px := s.x0 ^^^ p
    if 0 < ct.length then
      let cx := beWord ct <<< ((8 - ct.length) * 8)
      let px := px ^^^ cx
      let cl ← clearChk px ct.length
      pure ({ s with x0 := cl ^^^ cx }, beBytes ct.length (px >>> ((8 - ct.length) * 8)))
    else
      pure ({ s with x0 := px }, [])
termination_by ct.length
decreasing_by simp only [List.length_drop]; omega

/-- `processDecryptInplace16` through the checked helpers. -/
def processDecryptInplace16Chk (s : AState) (ct : List Nat) :
    Option (AState × List Nat) :=
  if h : 16 ≤ ct.length then do
    let cx0 := beWord (ct.take 8)
    let cx1 := beWord ((ct.drop 8).take 8)
    let r ← processDecryptInplace16Chk (permute 16 { s with x0 := cx0, x1 := cx1 })
      (ct.drop 16)
    pure (r.1, beBytes 8 (s.x0 ^^^ cx0) ++ beBytes 8 (s.x1 ^^^ cx1) ++ r.2)
  else if h8 : 8 ≤ ct.length then do
    let cx0 := beWord (ct.take 8)
    let p0 := beBytes 8 (s.x0 ^^^ cx0)
    let s' := { s with x0 := cx0 }
    let rest := ct.drop 8
    let p ← padChk rest.length
    let px := s'.x1 ^^^ p
    if 0 < rest.length then
      let cx := beWord rest <<< ((8 - rest.length) * 8)
      let px := px ^^^ cx
      let cl ← clearChk px rest.length
      pure ({ s' with x1 := cl ^^^ cx },
        p0 ++ beBytes rest.length (px >>> ((8 - rest.length) * 8)))
    else
      pure ({ s' with x1 := px }, p0)
  else do
    let p ← padChk ct.length
    let px := s.x0 ^^^ p
    if 0 < ct.length then
      let cx := beWord ct <<< ((8 - ct.length) * 8)
      let px := px ^^^ cx
      let cl ← clearChk px ct.length
      pure ({ s with x0 := cl ^^^ cx }, beBytes ct.length (px >>> ((8 - ct.length) * 8)))
    else
      pure ({ s with x0 := px }, [])
termination_by ct.length
decreasing_by simp only [List.length_drop]; omega

/-! Well-formedness: all five state words fit in 64 bits. -/

/-- A permutation state is well formed when every word is below `2 ^ 64`. -/
abbrev WfState (s : AState) : Prop :=
  s.x0 < 2 ^ 64 ∧ s.x1 < 2 ^ 64 ∧ s.x2 < 2 ^ 64 ∧ s.x3 < 2 ^ 64 ∧ s.x4 < 2 ^ 64

theorem mask64_lt : mask64 < 2 ^ 64 :=
  Nat.sub_lt (Nat.two_pow_pos 64) Nat.one_pos

theorem rotr_lt (x n : Nat) : rotr x n < 2 ^ 64 :=
  Nat.lt_of_le_of_lt Nat.and_le_right mask64_lt

theorem not64_lt {x : Nat} (h : x < 2 ^ 64) : not64 x < 2 ^ 64 :=
  Nat.xor_lt_two_pow h mask64_lt

theorem and_lt64 (a : Nat) {b : Nat} (h : b < 2 ^ 64) : a &&& b < 2 ^ 64 :=
  Nat.lt_of_le_of_lt Nat.and_le_right h

theorem wf_round {s : AState} (hs : WfState s) {c : Nat} (hc : c < 2 ^ 64) :
    WfState (round s c) := by
  obtain ⟨h0, h1, h2, h3, h4⟩ := hs
  refine ⟨?_, ?_, ?_, ?_, ?_⟩ <;>
    simp only [round] <;>
    first
      | exact not64_lt (Nat.xor_lt_two_pow
          (Nat.xor_lt_two_pow
            (Nat.xor_lt_two_pow h2 (Nat.xor_lt_two_pow h1 hc))
            (and_lt64 _ (Nat.xor_lt_two_pow h4 h3)))
          (rotr_lt _ _))
      | exact Nat.xor_lt_two_pow
          (Nat.xor_lt_two_pow
            (Nat.xor_lt_two_pow
              (Nat.xor_lt_two_pow h0 h4)
              (and_lt64 _ (Nat.xor_lt_two_pow h2 (Nat.xor_lt_two_pow h1 hc))))
            (Nat.xor_lt_two_pow (Nat.xor_lt_two_pow h4 h3) (and_lt64 _ h1)))
          (rotr_lt _ _)
      | exact Nat.xor_lt_two_pow
          (Nat.xor_lt_two_pow (Nat.xor_lt_two_pow h1 (and_lt64 _ h3))
            (Nat.xor_lt_two_pow (Nat.xor_lt_two_pow h0 h4)
              (and_lt64 _ (Nat.xor_lt_two_pow h2 (Nat.xor_lt_two_pow h1 hc)))))
          (rotr_lt _ _)
      | exact Nat.xor_lt_two_pow
          (Nat.xor_lt_two_pow (Nat.xor_lt_two_pow h3 (and_lt64 _ (Nat.xor_lt_two_pow h0 h4)))
            (Nat.xor_lt_two_pow (Nat.xor_lt_two_pow h2 (Nat.xor_lt_two_pow h1 hc))
              (and_lt64 _ (Nat.xor_lt_two_pow h4 h3))))
          (rotr_lt _ _)
      | exact Nat.xor_lt_two_pow
          (Nat.xor_lt_two_pow (Nat.xor_lt_two_pow h4 h3) (and_lt64 _ h1))
          (rotr_lt _ _)

theorem wf_permute12 {s : AState} (hs : WfState s) : WfState (permute12 s) := by
  unfold permute12
  repeat refine wf_round ?_ (by norm_num)
  exact hs

theorem wf_permute8 {s : AState} (hs : WfState s) : WfState (permute8 s) := by
  unfold permute8
  repeat refine wf_round ?_ (by norm_num)
  exact hs

theorem wf_permute6 {s : AState} (hs : WfState s) : WfState (permute6 s) := by
  unfold permute6
  repeat refine wf_round ?_ (by norm_num)
  exact hs

theorem wf_permute (count : Nat) {s : AState} (hs : WfState s) :
    WfState (permute count s) := by
  unfold permute
  split
  · exact wf_permute6 hs
  · exact wf_permute8 hs

/-! Arithmetic facts about big-endian words and bytes. -/

theorem beWord_aux (bs : List Nat) (acc : Nat) :
    bs.foldl (fun a b => a * 256 + b) acc
      = acc * 256 ^ bs.length + bs.foldl (fun a b => a * 256 + b) 0 := by
  induction bs generalizing acc with
  | nil => simp
  | cons b t ih =>
    simp only [List.foldl_cons, List.length_cons]
    rw [ih (acc * 256 + b), ih (0 * 256 + b)]
    ring

theorem beWord_cons (b : Nat) (bs : List Nat) :
    beWord (b :: bs) = b * 256 ^ bs.length + beWord bs := by
  unfold beWord
  simp only [List.foldl_cons]
  rw [beWord_aux bs (0 * 256 + b)]
  ring_nf

theorem beWord_lt {bs : List Nat} (h : ∀ b ∈ bs, b < 256) :
    beWord bs < 256 ^ bs.length := by
  induction bs with
  | nil => simp [beWord]
  | cons b t ih =>
    rw [beWord_cons]
    have hb : b < 256 := h b (by simp)
    have ht := ih (fun x hx => h x (List.mem_cons_of_mem _ hx))
    have hle : b * 256 ^ t.length + 256 ^ t.length ≤ 256 ^ (t.length + 1) := by
      have : (b + 1) * 256 ^ t.length ≤ 256 * 256 ^ t.length :=
        Nat.mul_le_mul_right _ (by omega)
      calc b * 256 ^ t.length + 256 ^ t.length = (b + 1) * 256 ^ t.length := by ring
        _ ≤ 256 * 256 ^ t.length := this
        _ = 256 ^ (t.length + 1) := by ring
    simp only [List.length_cons]
    omega

theorem length_beBytes (n v : Nat) : (beBytes n v).length = n := by
  induction n generalizing v with
  | zero => rfl
  | succ n ih => simp [beBytes, ih]

theorem pow256_eq (n : Nat) : (256 : Nat) ^ n = 2 ^ (8 * n) := by
  rw [Nat.pow_mul]

theorem beWord_beBytes (n v : Nat) : beWord (beBytes n v) = v % 256 ^ n := by
  induction n generalizing v with
  | zero => simp [beBytes, beWord, Nat.mod_one]
  | succ n ih =>
    rw [show beBytes (n + 1) v = (v >>> (8 * n)) % 256 :: beBytes n v from rfl]
    rw [beWord_cons, length_beBytes, ih, Nat.shiftRight_eq_div_pow, ← pow256_eq]
    rw [pow_succ, Nat.mod_mul]
    ring

theorem beBytes_mul_add (n a w : Nat) : beBytes n (a * 256 ^ n + w) = beBytes n w := by
  induction n generalizing a w with
  | zero => rfl
  | succ n ih =>
    rw [show beBytes (n + 1) (a * 256 ^ (n + 1) + w)
          = ((a * 256 ^ (n + 1) + w) >>> (8 * n)) % 256
            :: beBytes n (a * 256 ^ (n + 1) + w) from rfl]
    rw [show beBytes (n + 1) w = (w >>> (8 * n)) % 256 :: beBytes n w from rfl]
    have hrw : a * 256 ^ (n + 1) + w = 256 ^ n * (a * 256) + w := by ring
    congr 1
    · rw [Nat.shiftRight_eq_div_pow, Nat.shiftRight_eq_div_pow, ← pow256_eq, hrw,
        Nat.mul_add_div (Nat.pos_pow_of_pos n (by norm_num))]
      omega
    · rw [hrw, show (256 : Nat) ^ n * (a * 256) + w = (a * 256) * 256 ^ n + w by ring, ih]

theorem beBytes_beWord {bs : List Nat} (h : ∀ b ∈ bs, b < 256) :
    beBytes bs.length (beWord bs) = bs := by
  induction bs with
  | nil => rfl
  | cons b t ih =>
    rw [beWord_cons, List.length_cons]
    rw [show beBytes (t.length + 1) (b * 256 ^ t.length + beWord t)
          = ((b * 256 ^ t.length + beWord t) >>> (8 * t.length)) % 256
            :: beBytes t.length (b * 256 ^ t.length + beWord t) from rfl]
    have hw := beWord_lt (fun x hx => h x (List.mem_cons_of_mem _ hx))
    congr 1
    · rw [Nat.shiftRight_eq_div_pow, ← pow256_eq,
        show b * 256 ^ t.length + beWord t = 256 ^ t.length * b + beWord t by ring,
        Nat.mul_add_div (Nat.pos_pow_of_pos t.length (by norm_num)),
        Nat.div_eq_of_lt hw]
      exact Nat.mod_eq_of_lt (by have := h b (by simp); omega)
    · rw [beBytes_mul_add, ih (fun x hx => h x (List.mem_cons_of_mem _ hx))]

/-! Bit-level algebra used by the round-trip argument. -/

theorem xor_cancel_left (a b : Nat) : a ^^^ (a ^^^ b) = b := by
  rw [← Nat.xor_assoc, Nat.xor_self, Nat.zero_xor]

theorem shiftRight_xor (a b k : Nat) : (a ^^^ b) >>> k = (a >>> k) ^^^ (b >>> k) := by
  apply Nat.eq_of_testBit_eq
  intro i
  simp [Nat.testBit_shiftRight, Nat.testBit_xor]

theorem mod_two_pow_xor (a b k : Nat) :
    (a ^^^ b) % 2 ^ k = (a % 2 ^ k) ^^^ (b % 2 ^ k) := by
  apply Nat.eq_of_testBit_eq
  intro i
  simp only [Nat.testBit_mod_two_pow, Nat.testBit_xor]
  by_cases h : i < k <;> simp [h]

theorem shiftLeft_shiftRight_self (a k : Nat) : (a <<< k) >>> k = a := by
  rw [Nat.shiftLeft_eq, Nat.shiftRight_eq_div_pow,
    Nat.mul_div_cancel _ (Nat.two_pow_pos k)]

theorem shiftLeft_mod_two_pow (a k : Nat) : (a <<< k) % 2 ^ k = 0 := by
  rw [Nat.shiftLeft_eq]
  exact Nat.mul_mod_left a (2 ^ k)

theorem mod_xor_shiftRight_shiftLeft (x k : Nat) :
    x % 2 ^ k ^^^ ((x >>> k) <<< k) = x := by
  apply Nat.eq_of_testBit_eq
  intro i
  simp only [Nat.testBit_xor, Nat.testBit_mod_two_pow, Nat.testBit_shiftLeft,
    Nat.testBit_shiftRight]
  by_cases h : i < k
  · simp [h, Nat.not_le.2 h]
  · have h' : k ≤ i := Nat.not_lt.1 h
    simp [h, h', Nat.add_sub_cancel' h']

theorem shiftRight_lt {x n k : Nat} (h : x < 2 ^ (n + k)) : x >>> k < 2 ^ n := by
  rw [Nat.shiftRight_eq_div_pow]
  rw [Nat.div_lt_iff_lt_mul (Nat.two_pow_pos k)]
  rw [← pow_add]
  exact h

theorem shiftLeft_lt {a n : Nat} (k : Nat) (h : a < 2 ^ n) : a <<< k < 2 ^ (n + k) := by
  rw [Nat.shiftLeft_eq, pow_add]
  exact Nat.mul_lt_mul_of_lt_of_le h (Nat.le_refl _) (Nat.two_pow_pos k)

theorem pad_lt {n : Nat} (h : n ≤ 7) : pad n < 2 ^ 64 := by
  unfold pad
  rw [Nat.shiftLeft_eq]
  calc (0x80 : Nat) * 2 ^ (56 - 8 * n) = 2 ^ (7 + (56 - 8 * n)) := by
        rw [pow_add]; norm_num
    _ < 2 ^ 64 := Nat.pow_lt_pow_right (by norm_num) (by omega)

theorem two_pow_sub_one_shiftRight (a b : Nat) : (2 ^ a - 1) >>> b = 2 ^ (a - b) - 1 := by
  apply Nat.eq_of_testBit_eq
  intro i
  simp only [Nat.testBit_shiftRight, Nat.testBit_two_pow_sub_one]
  simp only [decide_eq_decide]
  omega

theorem clear_eq_mod {w n : Nat} (h1 : 1 ≤ n) (h7 : n ≤ 7) :
    clear w n = w % 2 ^ ((8 - n) * 8) := by
  unfold clear
  rw [show (0x00ffffffffffffff : Nat) = 2 ^ 56 - 1 by norm_num,
    two_pow_sub_one_shiftRight,
    show 56 - (n * 8 - 8) = (8 - n) * 8 by omega,
    Nat.and_pow_two_sub_one_eq_mod]

theorem beWord_lt64 {l : List Nat} (hb : ∀ b ∈ l, b < 256) (h : l.length ≤ 8) :
    beWord l < 2 ^ 64 := by
  have h1 := beWord_lt hb
  calc beWord l < 256 ^ l.length := h1
    _ ≤ 256 ^ 8 := Nat.pow_le_pow_right (by norm_num) h
    _ = 2 ^ 64 := by norm_num

theorem beWord_shl_lt {l : List Nat} (hb : ∀ b ∈ l, b < 256) (h : l.length ≤ 8) :
    beWord l <<< ((8 - l.length) * 8) < 2 ^ 64 := by
  have h1 : beWord l < 2 ^ (8 * l.length) := by
    rw [← pow256_eq]; exact beWord_lt hb
  have h2 := shiftLeft_lt ((8 - l.length) * 8) h1
  calc beWord l <<< ((8 - l.length) * 8) < 2 ^ (8 * l.length + (8 - l.length) * 8) := h2
    _ ≤ 2 ^ 64 := Nat.pow_le_pow_right (by norm_num) (by omega)

theorem beWord_take8_lt {l : List Nat} (hb : ∀ b ∈ l, b < 256) :
    beWord (l.take 8) < 2 ^ 64 :=
  beWord_lt64 (fun b hbm => hb b (List.take_subset 8 l hbm))
    (by simp [List.length_take])

/-! Branch equations for the recursive block loops. -/

theorem encI8_ge (s : AState) (m : List Nat) (h : 8 ≤ m.length) :
    processEncryptInplace8 s m =
      ((processEncryptInplace8 (permute 8 { s with x0 := s.x0 ^^^ beWord (m.take 8) })
          (m.drop 8)).1,
        beBytes 8 (s.x0 ^^^ beWord (m.take 8)) ++
          (processEncryptInplace8 (permute 8 { s with x0 := s.x0 ^^^ beWord (m.take 8) })
            (m.drop 8)).2) := by
  conv_lhs => rw [processEncryptInplace8.eq_def]
  simp only [dif_pos h]

theorem encI8_pos (s : AState) (m : List Nat) (h : ¬ 8 ≤ m.length) (h0 : 0 < m.length) :
    processEncryptInplace8 s m =
      ({ s with x0 := (s.x0 ^^^ pad m.length) ^^^ (beWord m <<< ((8 - m.length) * 8)) },
        beBytes m.length
          (((s.x0 ^^^ pad m.length) ^^^ (beWord m <<< ((8 - m.length) * 8)))
            >>> ((8 - m.length) * 8))) := by
  conv_lhs => rw [processEncryptInplace8.eq_def]
  simp only [dif_neg h, if_pos h0]

theorem encI8_nil (s : AState) :
    processEncryptInplace8 s [] = ({ s with x0 := s.x0 ^^^ pad 0 }, []) := by
  rw [processEncryptInplace8.eq_def]
  norm_num

theorem decI8_ge (s : AState) (ct : List Nat) (h : 8 ≤ ct.length) :
    processDecryptInplace8 s ct =
      ((processDecryptInplace8 (permute 8 { s with x0 := beWord (ct.take 8) })
          (ct.drop 8)).1,
        beBytes 8 (s.x0 ^^^ beWord (ct.take 8)) ++
          (processDecryptInplace8 (permute 8 { s with x0 := beWord (ct.take 8) })
            (ct.drop 8)).2) := by
  conv_lhs => rw [processDecryptInplace8.eq_def]
  simp only [dif_pos h]

theorem decI8_pos (s : AState) (ct : List Nat) (h : ¬ 8 ≤ ct.length) (h0 : 0 < ct.length) :
    processDecryptInplace8 s ct =
      ({ s with x0 :=
          (clear ((s.x0 ^^^ pad ct.length) ^^^ (beWord ct <<< ((8 - ct.length) * 8)))
              ct.length
            ^^^ (beWord ct <<< ((8 - ct.length) * 8))) },
        beBytes ct.length
          (((s.x0 ^^^ pad ct.length) ^^^ (beWord ct <<< ((8 - ct.length) * 8)))
            >>> ((8 - ct.length) * 8))) := by
  conv_lhs => rw [processDecryptInplace8.eq_def]
  simp only [dif_neg h, if_pos h0]

theorem decI8_nil (s : AState) :
    processDecryptInplace8 s [] = ({ s with x0 := s.x0 ^^^ pad 0 }, []) := by
  rw [processDecryptInplace8.eq_def]
  norm_num

theorem encI16_ge (s : AState) (m : List Nat) (h : 16 ≤ m.length) :
    processEncryptInplace16 s m =
      ((processEncryptInplace16
          (permute 16 { s with
            x0 := s.x0 ^^^ beWord (m.take 8)
            x1 := s.x1 ^^^ beWord ((m.drop 8).take 8) }) (m.drop 16)).1,
        beBytes 8 (s.x0 ^^^ beWord (m.take 8)) ++
          (beBytes 8 (s.x1 ^^^ beWord ((m.drop 8).take 8)) ++
            (processEncryptInplace16
              (permute 16 { s with
                x0 := s.x0 ^^^ beWord (m.take 8)
                x1 := s.x1 ^^^ beWord ((m.drop 8).take 8) }) (m.drop 16)).2)) := by
  conv_lhs => rw [processEncryptInplace16.eq_def]
  simp only [dif_pos h, List.append_assoc]

theorem encI16_mid_pos (s : AState) (m : List Nat) (h : ¬ 16 ≤ m.length)
    (h8 : 8 ≤ m.length) (h0 : 0 < (m.drop 8).length) :
    processEncryptInplace16 s m =
      ({ s with
          x0 := s.x0 ^^^ beWord (m.take 8)
          x1 := (s.x1 ^^^ pad (m.drop 8).length) ^^^
            (beWord (m.drop 8) <<< ((8 - (m.drop 8).length) * 8)) },
        beBytes 8 (s.x0 ^^^ beWord (m.take 8)) ++
          beBytes (m.drop 8).length
            (((s.x1 ^^^ pad (m.drop 8).length) ^^^
                (beWord (m.drop 8) <<< ((8 - (m.drop 8).length) * 8)))
              >>> ((8 - (m.drop 8).length) * 8))) := by
  conv_lhs => rw [processEncryptInplace16.eq_def]
  simp only [dif_neg h, dif_pos h8, if_pos h0]

theorem encI16_mid_zero (s : AState) (m : List Nat) (h : ¬ 16 ≤ m.length)
    (h8 : 8 ≤ m.length) (h0 : ¬ 0 < (m.drop 8).length) :
    processEncryptInplace16 s m =
      ({ s with
          x0 := s.x0 ^^^ beWord (m.take 8)
          x1 := s.x1 ^^^ pad (m.drop 8).length },
        beBytes 8 (s.x0 ^^^ beWord (m.take 8))) := by
  conv_lhs => rw [processEncryptInplace16.eq_def]
  simp only [dif_neg h, dif_pos h8, if_neg h0]

theorem encI16_pos (s : AState) (m : List Nat) (h8 : ¬ 8 ≤ m.length) (h0 : 0 < m.length) :
    processEncryptInplace16 s m =
      ({ s with x0 := (s.x0 ^^^ pad m.length) ^^^ (beWord m <<< ((8 - m.length) * 8)) },
        beBytes m.length
          (((s.x0 ^^^ pad m.length) ^^^ (beWord m <<< ((8 - m.length) * 8)))
            >>> ((8 - m.length) * 8))) := by
  conv_lhs => rw [processEncryptInplace16.eq_def]
  simp only [dif_neg (show ¬ 16 ≤ m.length by omega), dif_neg h8, if_pos h0]

theorem encI16_nil (s : AState) :
    processEncryptInplace16 s [] = ({ s with x0 := s.x0 ^^^ pad 0 }, []) := by
  rw [processEncryptInplace16.eq_def]
  norm_num

theorem decI16_ge (s : AState) (ct : List Nat) (h : 16 ≤ ct.length) :
    processDecryptInplace16 s ct =
      ((processDecryptInplace16
          (permute 16 { s with
            x0 := beWord (ct.take 8)
            x1 := beWord ((ct.drop 8).take 8) }) (ct.drop 16)).1,
        beBytes 8 (s.x0 ^^^ beWord (ct.take 8)) ++
          (beBytes 8 (s.x1 ^^^ beWord ((ct.drop 8).take 8)) ++
            (processDecryptInplace16
              (permute 16 { s with
                x0 := beWord (ct.take 8)
                x1 := beWord ((ct.drop 8).take 8) }) (ct.drop 16)).2)) := by
  conv_lhs => rw [processDecryptInplace16.eq_def]
  simp only [dif_pos h, List.append_assoc]

theorem decI16_mid_pos (s : AState) (ct : List Nat) (h : ¬ 16 ≤ ct.length)
    (h8 : 8 ≤ ct.length) (h0 : 0 < (ct.drop 8).length) :
    processDecryptInplace16 s ct =
      ({ s with
          x0 := beWord (ct.take 8)
          x1 :=
            (clear ((s.x1 ^^^ pad (ct.drop 8).length) ^^^
                (beWord (ct.drop 8) <<< ((8 - (ct.drop 8).length) * 8)))
                (ct.drop 8).length
              ^^^ (beWord (ct.drop 8) <<< ((8 - (ct.drop 8).length) * 8))) },
        beBytes 8 (s.x0 ^^^ beWord (ct.take 8)) ++
          beBytes (ct.drop 8).length
            (((s.x1 ^^^ pad (ct.drop 8).length) ^^^
                (beWord (ct.drop 8) <<< ((8 - (ct.drop 8).length) * 8)))
              >>> ((8 - (ct.drop 8).length) * 8))) := by
  conv_lhs => rw [processDecryptInplace16.eq_def]
  simp only [dif_neg h, dif_pos h8, if_pos h0]

theorem decI16_mid_zero (s : AState) (ct : List Nat) (h : ¬ 16 ≤ ct.length)
    (h8 : 8 ≤ ct.length) (h0 : ¬ 0 < (ct.drop 8).length) :
    processDecryptInplace16 s ct =
      ({ s with
          x0 := beWord (ct.take 8)
          x1 := s.x1 ^^^ pad (ct.drop 8).length },
        beBytes 8 (s.x0 ^^^ beWord (ct.take 8))) := by
  conv_lhs => rw [processDecryptInplace16.eq_def]
  simp only [dif_neg h, dif_pos h8, if_neg h0]

theorem decI16_pos (s : AState) (ct : List Nat) (h8 : ¬ 8 ≤ ct.length) (h0 : 0 < ct.length) :
    processDecryptInplace16 s ct =
      ({ s with x0 :=
          (clear ((s.x0 ^^^ pad ct.length) ^^^ (beWord ct <<< ((8 - ct.length) * 8)))
              ct.length
            ^^^ (beWord ct <<< ((8 - ct.length) * 8))) },
        beBytes ct.length
          (((s.x0 ^^^ pad ct.length) ^^^ (beWord ct <<< ((8 - ct.length) * 8)))
            >>> ((8 - ct.length) * 8))) := by
  conv_lhs => rw [processDecryptInplace16.eq_def]
  simp only [dif_neg (show ¬ 16 ≤ ct.length by omega), dif_neg h8, if_pos h0]

theorem decI16_nil (s : AState) :
    processDecryptInplace16 s [] = ({ s with x0 := s.x0 ^^^ pad 0 }, []) := by
  rw [processDecryptInplace16.eq_def]
  norm_num

/-! The partial-tail round-trip algebra on a single word. -/

theorem beWord_beBytes8 {w : Nat} (hw : w < 2 ^ 64) : beWord (beBytes 8 w) = w := by
  rw [beWord_beBytes]
  exact Nat.mod_eq_of_lt (by norm_num at hw ⊢; exact hw)

theorem tailStep (x M len : Nat) (hx : x < 2 ^ 64) (hM : M < 256 ^ len)
    (h1 : 0 < len) (h7 : len < 8) :
    beWord (beBytes len
        (((x ^^^ pad len) ^^^ (M <<< ((8 - len) * 8))) >>> ((8 - len) * 8)))
      = ((x ^^^ pad len) ^^^ (M <<< ((8 - len) * 8))) >>> ((8 - len) * 8) ∧
    ((x ^^^ pad len) ^^^
        ((((x ^^^ pad len) ^^^ (M <<< ((8 - len) * 8))) >>> ((8 - len) * 8))
          <<< ((8 - len) * 8))) >>> ((8 - len) * 8) = M ∧
    clear ((x ^^^ pad len) ^^^
          ((((x ^^^ pad len) ^^^ (M <<< ((8 - len) * 8))) >>> ((8 - len) * 8))
            <<< ((8 - len) * 8))) len
        ^^^ ((((x ^^^ pad len) ^^^ (M <<< ((8 - len) * 8))) >>> ((8 - len) * 8))
          <<< ((8 - len) * 8))
      = (x ^^^ pad len) ^^^ (M <<< ((8 - len) * 8)) := by
  have hk : 8 * len + (8 - len) * 8 = 64 := by omega
  have hpad : pad len < 2 ^ 64 := pad_lt (by omega)
  have hM2 : M < 2 ^ (8 * len) := by rw [← pow256_eq]; exact hM
  have hMk : M <<< ((8 - len) * 8) < 2 ^ 64 := by
    have := shiftLeft_lt ((8 - len) * 8) hM2
    rwa [hk] at this
  have hxp : x ^^^ pad len < 2 ^ 64 := Nat.xor_lt_two_pow hx hpad
  have hpx : (x ^^^ pad len) ^^^ (M <<< ((8 - len) * 8)) < 2 ^ 64 :=
    Nat.xor_lt_two_pow hxp hMk
  have hsr : ((x ^^^ pad len) ^^^ (M <<< ((8 - len) * 8))) >>> ((8 - len) * 8)
      < 256 ^ len := by
    rw [pow256_eq]
    exact shiftRight_lt (by rwa [hk])
  refine ⟨?_, ?_, ?_⟩
  · rw [beWord_beBytes]
    exact Nat.mod_eq_of_lt hsr
  · rw [shiftRight_xor, shiftLeft_shiftRight_self,
      shiftRight_xor (x ^^^ pad len) (M <<< ((8 - len) * 8)), xor_cancel_left,
      shiftLeft_shiftRight_self]
  · rw [clear_eq_mod h1 (by omega), mod_two_pow_xor, shiftLeft_mod_two_pow,
      Nat.xor_zero]
    have hmod : ((x ^^^ pad len) ^^^ (M <<< ((8 - len) * 8))) % 2 ^ ((8 - len) * 8)
        = (x ^^^ pad len) % 2 ^ ((8 - len) * 8) := by
      rw [mod_two_pow_xor, shiftLeft_mod_two_pow, Nat.xor_zero]
    rw [← hmod, mod_xor_shiftRight_shiftLeft]

/-! Ciphertext length preservation. -/

theorem encI8_len (m : List Nat) (s : AState) :
    (processEncryptInplace8 s m).2.length = m.length := by
  by_cases h : 8 ≤ m.length
  · rw [encI8_ge s m h]
    simp only [List.length_append, length_beBytes]
    rw [encI8_len (m.drop 8) (permute 8 { s with x0 := s.x0 ^^^ beWord (m.take 8) })]
    simp only [List.length_drop]
    omega
  · by_cases h0 : 0 < m.length
    · rw [encI8_pos s m h h0]
      simp only [length_beBytes]
    · have hnil : m = [] := List.length_eq_zero.mp (by omega)
      subst hnil
      rw [encI8_nil]
termination_by m.length
decreasing_by simp only [List.length_drop]; omega

theorem encI16_len (m : List Nat) (s : AState) :
    (processEncryptInplace16 s m).2.length = m.length := by
  by_cases h : 16 ≤ m.length
  · rw [encI16_ge s m h]
    simp only [List.length_append, length_beBytes]
    rw [encI16_len (m.drop 16)
      (permute 16 { s with
        x0 := s.x0 ^^^ beWord (m.take 8)
        x1 := s.x1 ^^^ beWord ((m.drop 8).take 8) })]
    simp only [List.length_drop]
    omega
  · by_cases h8 : 8 ≤ m.length
    · by_cases h0 : 0 < (m.drop 8).length
      · rw [encI16_mid_pos s m h h8 h0]
        simp only [List.length_append, length_beBytes, List.length_drop]
        omega
      · rw [encI16_mid_zero s m h h8 h0]
        simp only [length_beBytes, List.length_drop] at h0 ⊢
        omega
    · by_cases h0 : 0 < m.length
      · rw [encI16_pos s m h8 h0]
        simp only [length_beBytes]
      · have hnil : m = [] := List.length_eq_zero.mp (by omega)
        subst hnil
        rw [encI16_nil]
termination_by m.length
decreasing_by simp only [List.length_drop]; omega

/-! Decryption inverts encryption block by block (rate 8). -/

theorem decEnc8 (m : List Nat) (s : AState) (hs : WfState s)
    (hm : ∀ b ∈ m, b < 256) :
    processDecryptInplace8 s (processEncryptInplace8 s m).2
      = ((processEncryptInplace8 s m).1, m) := by
  by_cases h : 8 ≤ m.length
  · have hlt : beWord (m.take 8) < 2 ^ 64 := beWord_take8_lt hm
    have hwlt : s.x0 ^^^ beWord (m.take 8) < 2 ^ 64 := Nat.xor_lt_two_pow hs.1 hlt
    have hws : WfState (permute 8 { s with x0 := s.x0 ^^^ beWord (m.take 8) }) :=
      wf_permute 8 ⟨hwlt, hs.2.1, hs.2.2.1, hs.2.2.2.1, hs.2.2.2.2⟩
    have ih := decEnc8 (m.drop 8)
      (permute 8 { s with x0 := s.x0 ^^^ beWord (m.take 8) }) hws
      (fun b hb => hm b (List.drop_subset _ _ hb))
    rw [encI8_ge s m h]
    rw [decI8_ge _ _ (by simp only [List.length_append, length_beBytes]; omega)]
    rw [List.take_left' (length_beBytes 8 _), List.drop_left' (length_beBytes 8 _)]
    rw [beWord_beBytes8 hwlt]
    rw [ih]
    rw [xor_cancel_left]
    have htk : (m.take 8).length = 8 := by simp only [List.length_take]; omega
    have hbk : beBytes 8 (beWord (m.take 8)) = m.take 8 := by
      have hb : beBytes (m.take 8).length (beWord (m.take 8)) = m.take 8 :=
        beBytes_beWord (fun b hb => hm b (List.take_subset _ _ hb))
      rwa [htk] at hb
    rw [hbk, List.take_append_drop]
  · by_cases h0 : 0 < m.length
    · have hM : beWord m < 256 ^ m.length := beWord_lt hm
      obtain ⟨t1, t2, t3⟩ := tailStep s.x0 (beWord m) m.length hs.1 hM h0 (by omega)
      rw [encI8_pos s m h h0]
      rw [decI8_pos _ _ (by rw [length_beBytes]; exact h)
        (by rw [length_beBytes]; exact h0)]
      simp only [length_beBytes]
      rw [t1, t2, t3, beBytes_beWord hm]
    · have hnil : m = [] := List.length_eq_zero.mp (by omega)
      subst hnil
      rw [encI8_nil, decI8_nil]
termination_by m.length
decreasing_by simp only [List.length_drop]; omega

/-! Decryption inverts encryption block by block (rate 16). -/

theorem drop16_append (l1 l2 l3 : List Nat) (h1 : l1.length = 8) (h2 : l2.length = 8) :
    (l1 ++ (l2 ++ l3)).drop 16 = l3 := by
  rw [show (16 : Nat) = 8 + 8 from rfl, ← List.drop_drop, List.drop_left' h1,
    List.drop_left' h2]

theorem decEnc16 (m : List Nat) (s : AState) (hs : WfState s)
    (hm : ∀ b ∈ m, b < 256) :
    processDecryptInplace16 s (processEncryptInplace16 s m).2
      = ((processEncryptInplace16 s m).1, m) := by
  have hm8 : ∀ b ∈ m.drop 8, b < 256 := fun b hb => hm b (List.drop_subset _ _ hb)
  by_cases h : 16 ≤ m.length
  · have hlt0 : beWord (m.take 8) < 2 ^ 64 := beWord_take8_lt hm
    have hlt1 : beWord ((m.drop 8).take 8) < 2 ^ 64 := beWord_take8_lt hm8
    have hw0 : s.x0 ^^^ beWord (m.take 8) < 2 ^ 64 := Nat.xor_lt_two_pow hs.1 hlt0
    have hw1 : s.x1 ^^^ beWord ((m.drop 8).take 8) < 2 ^ 64 :=
      Nat.xor_lt_two_pow hs.2.1 hlt1
    have hws : WfState (permute 16 { s with
        x0 := s.x0 ^^^ beWord (m.take 8)
        x1 := s.x1 ^^^ beWord ((m.drop 8).take 8) }) :=
      wf_permute 16 ⟨hw0, hw1, hs.2.2.1, hs.2.2.2.1, hs.2.2.2.2⟩
    have ih := decEnc16 (m.drop 16)
      (permute 16 { s with
        x0 := s.x0 ^^^ beWord (m.take 8)
        x1 := s.x1 ^^^ beWord ((m.drop 8).take 8) }) hws
      (fun b hb => hm b (List.drop_subset _ _ hb))
    rw [encI16_ge s m h]
    rw [decI16_ge _ _ (by
      simp only [List.length_append, length_beBytes]
      omega)]
    rw [drop16_append _ _ _ (length_beBytes 8 _) (length_beBytes 8 _)]
    rw [List.take_left' (length_beBytes 8 _), List.drop_left' (length_beBytes 8 _),
      List.take_left' (length_beBytes 8 _)]
    rw [beWord_beBytes8 hw0, beWord_beBytes8 hw1]
    rw [ih]
    rw [xor_cancel_left, xor_cancel_left]
    have htk : (m.take 8).length = 8 := by simp only [List.length_take]; omega
    have htk8 : ((m.drop 8).take 8).length = 8 := by
      simp only [List.length_take, List.length_drop]
      omega
    have hbk : beBytes 8 (beWord (m.take 8)) = m.take 8 := by
      have hb : beBytes (m.take 8).length (beWord (m.take 8)) = m.take 8 :=
        beBytes_beWord (fun b hb => hm b (List.take_subset _ _ hb))
      rwa [htk] at hb
    have hbk8 : beBytes 8 (beWord ((m.drop 8).take 8)) = (m.drop 8).take 8 := by
      have hb : beBytes ((m.drop 8).take 8).length (beWord ((m.drop 8).take 8))
          = (m.drop 8).take 8 :=
        beBytes_beWord (fun b hb => hm8 b (List.take_subset _ _ hb))
      rwa [htk8] at hb
    rw [hbk, hbk8]
    rw [show m.drop 16 = (m.drop 8).drop 8 from by rw [List.drop_drop]]
    rw [List.take_append_drop, List.take_append_drop]
  · by_cases h8 : 8 ≤ m.length
    · -- the 8-byte sub-step into x0, then the partial tail into x1
      have hlt0 : beWord (m.take 8) < 2 ^ 64 := beWord_take8_lt hm
      have hw0 : s.x0 ^^^ beWord (m.take 8) < 2 ^ 64 := Nat.xor_lt_two_pow hs.1 hlt0
      have htk : (m.take 8).length = 8 := by simp only [List.length_take]; omega
      have hbk : beBytes 8 (beWord (m.take 8)) = m.take 8 := by
        have hb : beBytes (m.take 8).length (beWord (m.take 8)) = m.take 8 :=
          beBytes_beWord (fun b hb => hm b (List.take_subset _ _ hb))
        rwa [htk] at hb
      by_cases h0 : 0 < (m.drop 8).length
      · have hM : beWord (m.drop 8) < 256 ^ (m.drop 8).length := beWord_lt hm8
        obtain ⟨t1, t2, t3⟩ := tailStep s.x1 (beWord (m.drop 8)) (m.drop 8).length
          hs.2.1 hM h0 (by simp only [List.length_drop]; omega)
        rw [encI16_mid_pos s m h h8 h0]
        rw [decI16_mid_pos _ _
          (by simp only [List.length_append, length_beBytes, List.length_drop]; omega)
          (by simp only [List.length_append, length_beBytes]; omega)
          (by rw [List.drop_left' (length_beBytes 8 _), length_beBytes]; exact h0)]
        rw [List.take_left' (length_beBytes 8 _), List.drop_left' (length_beBytes 8 _)]
        simp only [length_beBytes]
        rw [beWord_beBytes8 hw0]
        rw [t1, t2, t3, beBytes_beWord hm8]
        rw [xor_cancel_left, hbk, List.take_append_drop]
      · have hlen8 : m.length = 8 := by
          have hc := h0
          simp only [List.length_drop] at hc
          omega
        rw [encI16_mid_zero s m h h8 h0]
        rw [decI16_mid_zero _ _
          (by rw [length_beBytes]; omega)
          (by rw [length_beBytes])
          (by rw [List.drop_of_length_le (by rw [length_beBytes])]; simp)]
        rw [List.take_of_length_le
            (l := beBytes 8 (s.x0 ^^^ beWord (m.take 8))) (by rw [length_beBytes]),
          List.drop_of_length_le
            (l := beBytes 8 (s.x0 ^^^ beWord (m.take 8))) (by rw [length_beBytes])]
        rw [beWord_beBytes8 hw0]
        rw [xor_cancel_left, hbk]
        have hme : m.take 8 = m := List.take_of_length_le (by omega)
        have hde : (m.drop 8).length = 0 := by simp only [List.length_drop]; omega
        rw [hme, hde]
        simp
    · by_cases h0 : 0 < m.length
      · have hM : beWord m < 256 ^ m.length := beWord_lt hm
        obtain ⟨t1, t2, t3⟩ := tailStep s.x0 (beWord m) m.length hs.1 hM h0 (by omega)
        rw [encI16_pos s m h8 h0]
        rw [decI16_pos _ _ (by rw [length_beBytes]; exact h8)
          (by rw [length_beBytes]; exact h0)]
        simp only [length_beBytes]
        rw [t1, t2, t3, beBytes_beWord hm]
      · have hnil : m = [] := List.length_eq_zero.mp (by omega)
        subst hnil
        rw [encI16_nil, decI16_nil]
termination_by m.length
decreasing_by simp only [List.length_drop]; omega

/-! Well-formedness of the state after construction and absorption. -/

theorem wf_adBlocks8 (ad : List Nat) (s : AState) (hs : WfState s)
    (ha : ∀ b ∈ ad, b < 256) : WfState (adBlocks8 s ad) := by
  by_cases h : 8 ≤ ad.length
  · rw [adBlocks8.eq_def]
    simp only [dif_pos h]
    exact wf_adBlocks8 (ad.drop 8) _
      (wf_permute 8 ⟨Nat.xor_lt_two_pow hs.1 (beWord_take8_lt ha), hs.2.1, hs.2.2.1,
        hs.2.2.2.1, hs.2.2.2.2⟩)
      (fun b hb => ha b (List.drop_subset _ _ hb))
  · rw [adBlocks8.eq_def]
    simp only [dif_neg h]
    apply wf_permute
    refine ⟨?_, hs.2.1, hs.2.2.1, hs.2.2.2.1, hs.2.2.2.2⟩
    by_cases h0 : 0 < ad.length
    · simp only [if_pos h0]
      exact Nat.xor_lt_two_pow (Nat.xor_lt_two_pow hs.1 (pad_lt (by omega)))
        (beWord_shl_lt ha (by omega))
    · simp only [if_neg h0]
      exact Nat.xor_lt_two_pow hs.1 (pad_lt (by omega))
termination_by ad.length
decreasing_by simp only [List.length_drop]; omega

theorem wf_adBlocks16 (ad : List Nat) (s : AState) (hs : WfState s)
    (ha : ∀ b ∈ ad, b < 256) : WfState (adBlocks16 s ad) := by
  have ha8 : ∀ b ∈ ad.drop 8, b < 256 := fun b hb => ha b (List.drop_subset _ _ hb)
  by_cases h : 16 ≤ ad.length
  · rw [adBlocks16.eq_def]
    simp only [dif_pos h]
    exact wf_adBlocks16 (ad.drop 16) _
      (wf_permute 16 ⟨Nat.xor_lt_two_pow hs.1 (beWord_take8_lt ha),
        Nat.xor_lt_two_pow hs.2.1 (beWord_take8_lt ha8), hs.2.2.1,
        hs.2.2.2.1, hs.2.2.2.2⟩)
      (fun b hb => ha b (List.drop_subset _ _ hb))
  · rw [adBlocks16.eq_def]
    simp only [dif_neg h]
    by_cases h8 : 8 ≤ ad.length
    · simp only [if_pos h8]
      apply wf_permute
      refine ⟨Nat.xor_lt_two_pow hs.1 (beWord_take8_lt ha), ?_, hs.2.2.1,
        hs.2.2.2.1, hs.2.2.2.2⟩
      by_cases h0 : 0 < (ad.drop 8).length
      · simp only [if_pos h0]
        refine Nat.xor_lt_two_pow (Nat.xor_lt_two_pow hs.2.1 (pad_lt ?_))
          (beWord_shl_lt ha8 ?_) <;>
          simp only [List.length_drop] <;> omega
      · simp only [if_neg h0]
        refine Nat.xor_lt_two_pow hs.2.1 (pad_lt ?_)
        simp only [List.length_drop]
        omega
    · simp only [if_neg h8]
      apply wf_permute
      refine ⟨?_, hs.2.1, hs.2.2.1, hs.2.2.2.1, hs.2.2.2.2⟩
      by_cases h0 : 0 < ad.length
      · simp only [if_pos h0]
        exact Nat.xor_lt_two_pow (Nat.xor_lt_two_pow hs.1 (pad_lt (by omega)))
          (beWord_shl_lt ha (by omega))
      · simp only [if_neg h0]
        exact Nat.xor_lt_two_pow hs.1 (pad_lt (by omega))
termination_by ad.length
decreasing_by simp only [List.length_drop]; omega

theorem wf_processAD8 (s : AState) (ad : List Nat) (hs : WfState s)
    (ha : ∀ b ∈ ad, b < 256) : WfState (processAssociatedData8 s ad) := by
  unfold processAssociatedData8
  by_cases h0 : 0 < ad.length
  · simp only [if_pos h0]
    have hw := wf_adBlocks8 ad s hs ha
    exact ⟨hw.1, hw.2.1, hw.2.2.1, hw.2.2.2.1,
      Nat.xor_lt_two_pow hw.2.2.2.2 (by norm_num)⟩
  · simp only [if_neg h0]
    exact ⟨hs.1, hs.2.1, hs.2.2.1, hs.2.2.2.1,
      Nat.xor_lt_two_pow hs.2.2.2.2 (by norm_num)⟩

theorem wf_processAD16 (s : AState) (ad : List Nat) (hs : WfState s)
    (ha : ∀ b ∈ ad, b < 256) : WfState (processAssociatedData16 s ad) := by
  unfold processAssociatedData16
  by_cases h0 : 0 < ad.length
  · simp only [if_pos h0]
    have hw := wf_adBlocks16 ad s hs ha
    exact ⟨hw.1, hw.2.1, hw.2.2.1, hw.2.2.2.1,
      Nat.xor_lt_two_pow hw.2.2.2.2 (by norm_num)⟩
  · simp only [if_neg h0]
    exact ⟨hs.1, hs.2.1, hs.2.2.1, hs.2.2.2.1,
      Nat.xor_lt_two_pow hs.2.2.2.2 (by norm_num)⟩

theorem wf_coreNew (iv : Nat) (key nonce : List Nat) (hiv : iv < 2 ^ 64)
    (hkb : ∀ b ∈ key, b < 256) (hnb : ∀ b ∈ nonce, b < 256)
    (hkl : key.length ≤ 16) (hnl : nonce.length ≤ 16) :
    WfState (Core.new iv key nonce).state := by
  unfold Core.new
  have hk1 : beWord (key.take 8) < 2 ^ 64 := beWord_take8_lt hkb
  have hk2 : beWord (key.drop 8) < 2 ^ 64 :=
    beWord_lt64 (fun b hb => hkb b (List.drop_subset _ _ hb))
      (by simp only [List.length_drop]; omega)
  have hn1 : beWord (nonce.take 8) < 2 ^ 64 := beWord_take8_lt hnb
  have hn2 : beWord (nonce.drop 8) < 2 ^ 64 :=
    beWord_lt64 (fun b hb => hnb b (List.drop_subset _ _ hb))
      (by simp only [List.length_drop]; omega)
  have hw := wf_permute12 (s :=
    { x0 := iv
      x1 := beWord (key.take 8)
      x2 := beWord (key.drop 8)
      x3 := beWord (nonce.take 8)
      x4 := beWord (nonce.drop 8) }) ⟨hiv, hk1, hk2, hn1, hn2⟩
  exact ⟨hw.1, hw.2.1, hw.2.2.1, Nat.xor_lt_two_pow hw.2.2.2.1 hk1,
    Nat.xor_lt_two_pow hw.2.2.2.2 hk2⟩

set_option maxRecDepth 8192 in
set_option maxHeartbeats 1000000 in
/-- C1: for every 16-byte key, 16-byte nonce, associated data and plaintext of
any length, and for both parameter sets (rate 8 with `iv128`, rate 16 with
`iv128a`), `encrypt_inplace` on a fresh core yields a ciphertext of the same
length as the plaintext and a tag such that `decrypt_inplace` on a second fresh
core built from the same key and nonce, applied to that ciphertext, the same
associated data and that tag, succeeds and restores the original plaintext. -/
theorem c1_encrypt_decrypt_round_trip (key nonce ad m : List Nat)
    (hk : key.length = 16) (hn : nonce.length = 16)
    (hkb : ∀ b ∈ key, b < 256) (hnb : ∀ b ∈ nonce, b < 256)
    (hab : ∀ b ∈ ad, b < 256) (hmb : ∀ b ∈ m, b < 256) :
    ((encryptInplace8 (Core.new iv128 key nonce) m ad).1.length = m.length ∧
      decryptInplace8 (Core.new iv128 key nonce)
        (encryptInplace8 (Core.new iv128 key nonce) m ad).1 ad
        (encryptInplace8 (Core.new iv128 key nonce) m ad).2
        = (m, Except.ok ())) ∧
    ((encryptInplace16 (Core.new iv128a key nonce) m ad).1.length = m.length ∧
      decryptInplace16 (Core.new iv128a key nonce)
        (encryptInplace16 (Core.new iv128a key nonce) m ad).1 ad
        (encryptInplace16 (Core.new iv128a key nonce) m ad).2
        = (m, Except.ok ())) := by
  have hwc8 : WfState (Core.new iv128 key nonce).state :=
    wf_coreNew _ _ _ (by norm_num [iv128]) hkb hnb (by omega) (by omega)
  have hwc16 : WfState (Core.new iv128a key nonce).state :=
    wf_coreNew _ _ _ (by norm_num [iv128a]) hkb hnb (by omega) (by omega)
  have hs8 : WfState (processAssociatedData8 (Core.new iv128 key nonce).state ad) :=
    wf_processAD8 _ _ hwc8 hab
  have hs16 : WfState (processAssociatedData16 (Core.new iv128a key nonce).state ad) :=
    wf_processAD16 _ _ hwc16 hab
  have hd8 := decEnc8 m _ hs8 hmb
  have hd16 := decEnc16 m _ hs16 hmb
  refine ⟨⟨?_, ?_⟩, ⟨?_, ?_⟩⟩
  · simp only [encryptInplace8]
    exact encI8_len m _
  · simp only [encryptInplace8, decryptInplace8]
    simp only [hd8]
    simp
  · simp only [encryptInplace16]
    exact encI16_len m _
  · simp only [encryptInplace16, decryptInplace16]
    simp only [hd16]
    simp

/-- Witness for C1 at a concrete input: the 16-byte key `0,1,...,15`, the
16-byte nonce `15,...,0`, associated data `[1, 2, 3]` and plaintext
`[250, 251, 252, 253, 254]`. -/
theorem c1_encrypt_decrypt_round_trip_witness :
    ([0, 1, 2, 3, 4, 5, 6, 7, 8, 9, 10, 11, 12, 13, 14, 15] : List Nat).length = 16 ∧
    ([15, 14, 13, 12, 11, 10, 9, 8, 7, 6, 5, 4, 3, 2, 1, 0] : List Nat).length = 16 ∧
    (((encryptInplace8 (Core.new iv128
          [0, 1, 2, 3, 4, 5, 6, 7, 8, 9, 10, 11, 12, 13, 14, 15]
          [15, 14, 13, 12, 11, 10, 9, 8, 7, 6, 5, 4, 3, 2, 1, 0])
        [250, 251, 252, 253, 254] [1, 2, 3]).1.length = 5 ∧
      decryptInplace8 (Core.new iv128
          [0, 1, 2, 3, 4, 5, 6, 7, 8, 9, 10, 11, 12, 13, 14, 15]
          [15, 14, 13, 12, 11, 10, 9, 8, 7, 6, 5, 4, 3, 2, 1, 0])
        (encryptInplace8 (Core.new iv128
            [0, 1, 2, 3, 4, 5, 6, 7, 8, 9, 10, 11, 12, 13, 14, 15]
            [15, 14, 13, 12, 11, 10, 9, 8, 7, 6, 5, 4, 3, 2, 1, 0])
          [250, 251, 252, 253, 254] [1, 2, 3]).1 [1, 2, 3]
        (encryptInplace8 (Core.new iv128
            [0, 1, 2, 3, 4, 5, 6, 7, 8, 9, 10, 11, 12, 13, 14, 15]
            [15, 14, 13, 12, 11, 10, 9, 8, 7, 6, 5, 4, 3, 2, 1, 0])
          [250, 251, 252, 253, 254] [1, 2, 3]).2
        = ([250, 251, 252, 253, 254], Except.ok ())) ∧
    ((encryptInplace16 (Core.new iv128a
          [0, 1, 2, 3, 4, 5, 6, 7, 8, 9, 10, 11, 12, 13, 14, 15]
          [15, 14, 13, 12, 11, 10, 9, 8, 7, 6, 5, 4, 3, 2, 1, 0])
        [250, 251, 252, 253, 254] [1, 2, 3]).1.length = 5 ∧
      decryptInplace16 (Core.new iv128a
          [0, 1, 2, 3, 4, 5, 6, 7, 8, 9, 10, 11, 12, 13, 14, 15]
          [15, 14, 13, 12, 11, 10, 9, 8, 7, 6, 5, 4, 3, 2, 1, 0])
        (encryptInplace16 (Core.new iv128a
            [0, 1, 2, 3, 4, 5, 6, 7, 8, 9, 10, 11, 12, 13, 14, 15]
            [15, 14, 13, 12, 11, 10, 9, 8, 7, 6, 5, 4, 3, 2, 1, 0])
          [250, 251, 252, 253, 254] [1, 2, 3]).1 [1, 2, 3]
        (encryptInplace16 (Core.new iv128a
            [0, 1, 2, 3, 4, 5, 6, 7, 8, 9, 10, 11, 12, 13, 14, 15]
            [15, 14, 13, 12, 11, 10, 9, 8, 7, 6, 5, 4, 3, 2, 1, 0])
          [250, 251, 252, 253, 254] [1, 2, 3]).2
        = ([250, 251, 252, 253, 254], Except.ok ()))) :=
  ⟨by decide, by decide,
    c1_encrypt_decrypt_round_trip
      [0, 1, 2, 3, 4, 5, 6, 7, 8, 9, 10, 11, 12, 13, 14, 15]
      [15, 14, 13, 12, 11, 10, 9, 8, 7, 6, 5, 4, 3, 2, 1, 0]
      [1, 2, 3] [250, 251, 252, 253, 254]
      (by decide) (by decide) (by decide) (by decide) (by decide) (by decide)⟩

/-! The checked mirrors never hit a panicking subtraction. -/

theorem padChk_eq {n : Nat} (h : n ≤ 7) : padChk n = some (pad n) := by
  unfold padChk checkedSub pad
  rw [if_pos (by omega)]
  rfl

theorem clearChk_eq (w : Nat) {n : Nat} (h : 1 ≤ n) : clearChk w n = some (clear w n) := by
  unfold clearChk checkedSub clear
  rw [if_pos (by omega)]
  rfl

theorem adBlocks8Chk_eq (ad : List Nat) (s : AState) :
    adBlocks8Chk s ad = some (adBlocks8 s ad) := by
  by_cases h : 8 ≤ ad.length
  · rw [adBlocks8Chk.eq_def, adBlocks8.eq_def]
    simp only [dif_pos h]
    exact adBlocks8Chk_eq (ad.drop 8) _
  · rw [adBlocks8Chk.eq_def, adBlocks8.eq_def]
    simp only [dif_neg h]
    rw [padChk_eq (by omega)]
    rfl
termination_by ad.length
decreasing_by simp only [List.length_drop]; omega

theorem adBlocks16Chk_eq (ad : List Nat) (s : AState) :
    adBlocks16Chk s ad = some (adBlocks16 s ad) := by
  by_cases h : 16 ≤ ad.length
  · rw [adBlocks16Chk.eq_def, adBlocks16.eq_def]
    simp only [dif_pos h]
    exact adBlocks16Chk_eq (ad.drop 16) _
  · rw [adBlocks16Chk.eq_def, adBlocks16.eq_def]
    simp only [dif_neg h]
    by_cases h8 : 8 ≤ ad.length
    · simp only [if_pos h8]
      rw [padChk_eq (by simp only [List.length_drop]; omega)]
      rfl
    · simp only [if_neg h8]
      rw [padChk_eq (by omega)]
      rfl
termination_by ad.length
decreasing_by simp only [List.length_drop]; omega

theorem processAD8Chk_eq (s : AState) (ad : List Nat) :
    processAssociatedData8Chk s ad = some (processAssociatedData8 s ad) := by
  unfold processAssociatedData8Chk processAssociatedData8
  by_cases h0 : 0 < ad.length
  · simp only [if_pos h0, adBlocks8Chk_eq]
    rfl
  · simp only [if_neg h0]
    rfl

theorem processAD16Chk_eq (s : AState) (ad : List Nat) :
    processAssociatedData16Chk s ad = some (processAssociatedData16 s ad) := by
  unfold processAssociatedData16Chk processAssociatedData16
  by_cases h0 : 0 < ad.length
  · simp only [if_pos h0, adBlocks16Chk_eq]
    rfl
  · simp only [if_neg h0]
    rfl

theorem encI8Chk_eq (m : List Nat) (s : AState) :
    processEncryptInplace8Chk s m = some (processEncryptInplace8 s m) := by
  by_cases h : 8 ≤ m.length
  · rw [processEncryptInplace8Chk.eq_def, processEncryptInplace8.eq_def]
    simp only [dif_pos h]
    rw [encI8Chk_eq (m.drop 8) _]
    rfl
  · rw [processEncryptInplace8Chk.eq_def, processEncryptInplace8.eq_def]
    simp only [dif_neg h]
    rw [padChk_eq (by omega)]
    simp only [Option.bind_eq_bind, Option.some_bind]
    by_cases h0 : 0 < m.length
    · simp only [if_pos h0]
      rfl
    · simp only [if_neg h0]
      rfl
termination_by m.length
decreasing_by simp only [List.length_drop]; omega

theorem encI16Chk_eq (m : List Nat) (s : AState) :
    processEncryptInplace16Chk s m = some (processEncryptInplace16 s m) := by
  by_cases h : 16 ≤ m.length
  · rw [processEncryptInplace16Chk.eq_def, processEncryptInplace16.eq_def]
    simp only [dif_pos h]
    rw [encI16Chk_eq (m.drop 16) _]
    rfl
  · rw [processEncryptInplace16Chk.eq_def, processEncryptInplace16.eq_def]
    simp only [dif_neg h]
    by_cases h8 : 8 ≤ m.length
    · simp only [dif_pos h8]
      rw [padChk_eq (by simp only [List.length_drop]; omega)]
      simp only [Option.bind_eq_bind, Option.some_bind]
      by_cases h0 : 0 < (m.drop 8).length
      · simp only [if_pos h0]
        rfl
      · simp only [if_neg h0]
        rfl
    · simp only [dif_neg h8]
      rw [padChk_eq (by omega)]
      simp only [Option.bind_eq_bind, Option.some_bind]
      by_cases h0 : 0 < m.length
      · simp only [if_pos h0]
        rfl
      · simp only [if_neg h0]
        rfl
termination_by m.length
decreasing_by simp only [List.length_drop]; omega

theorem decI8Chk_eq (ct : List Nat) (s : AState) :
    processDecryptInplace8Chk s ct = some (processDecryptInplace8 s ct) := by
  by_cases h : 8 ≤ ct.length
  · rw [processDecryptInplace8Chk.eq_def, processDecryptInplace8.eq_def]
    simp only [dif_pos h]
    rw [decI8Chk_eq (ct.drop 8) _]
    rfl
  · rw [processDecryptInplace8Chk.eq_def, processDecryptInplace8.eq_def]
    simp only [dif_neg h]
    rw [padChk_eq (by omega)]
    simp only [Option.bind_eq_bind, Option.some_bind]
    by_cases h0 : 0 < ct.length
    · simp only [if_pos h0]
      rw [clearChk_eq _ (by omega)]
      rfl
    · simp only [if_neg h0]
      rfl
termination_by ct.length
decreasing_by simp only [List.length_drop]; omega

theorem decI16Chk_eq (ct : List Nat) (s : AState) :
    processDecryptInplace16Chk s ct = some (processDecryptInplace16 s ct) := by
  by_cases h : 16 ≤ ct.length
  · rw [processDecryptInplace16Chk.eq_def, processDecryptInplace16.eq_def]
    simp only [dif_pos h]
    rw [decI16Chk_eq (ct.drop 16) _]
    rfl
  · rw [processDecryptInplace16Chk.eq_def, processDecryptInplace16.eq_def]
    simp only [dif_neg h]
    by_cases h8 : 8 ≤ ct.length
    · simp only [dif_pos h8]
      rw [padChk_eq (by simp only [List.length_drop]; omega)]
      simp only [Option.bind_eq_bind, Option.some_bind]
      by_cases h0 : 0 < (ct.drop 8).length
      · simp only [if_pos h0]
        rw [clearChk_eq _ (by omega)]
        rfl
      · simp only [if_neg h0]
        rfl
    · simp only [dif_neg h8]
      rw [padChk_eq (by omega)]
      simp only [Option.bind_eq_bind, Option.some_bind]
      by_cases h0 : 0 < ct.length
      · simp only [if_pos h0]
        rw [clearChk_eq _ (by omega)]
        rfl
      · simp only [if_neg h0]
        rfl
termination_by ct.length
decreasing_by simp only [List.length_drop]; omega

/-! Helper facts for the remaining claims. -/

theorem tag_compare_iff (t e : List Nat) :
    ((if t = e then (Except.ok () : Except AsconError Unit)
        else Except.error AsconError.authenticationFailure)
      = Except.error AsconError.authenticationFailure ↔ t ≠ e) ∧
    ((if t = e then (Except.ok () : Except AsconError Unit)
        else Except.error AsconError.authenticationFailure) = Except.ok () ↔ t = e) := by
  by_cases h : t = e <;> simp [h]

theorem beBytes_mod (n v : Nat) : beBytes n (v % 256 ^ n) = beBytes n v := by
  conv_rhs => rw [← Nat.div_add_mod v (256 ^ n)]
  rw [show 256 ^ n * (v / 256 ^ n) + v % 256 ^ n
      = (v / 256 ^ n) * 256 ^ n + v % 256 ^ n by ring, beBytes_mul_add]

theorem beBytes_drop (k n v : Nat) : (beBytes n v).drop k = beBytes (n - k) v := by
  induction k generalizing n with
  | zero => simp
  | succ k ih =>
    cases n with
    | zero => simp [beBytes]
    | succ n =>
      rw [show beBytes (n + 1) v = (v >>> (8 * n)) % 256 :: beBytes n v from rfl,
        List.drop_succ_cons, ih n]
      congr 1
      omega

theorem beBytes_mod_pow (j n v : Nat) (h : j ≤ n) :
    beBytes n (v % 256 ^ j) = List.replicate (n - j) 0 ++ beBytes j v := by
  induction n with
  | zero =>
    have hj : j = 0 := by omega
    subst hj
    simp [beBytes, Nat.mod_one]
  | succ n ih =>
    by_cases hj : j = n + 1
    · subst hj
      simp [beBytes_mod]
    · have hjn : j ≤ n := by omega
      rw [show beBytes (n + 1) (v % 256 ^ j)
          = ((v % 256 ^ j) >>> (8 * n)) % 256 :: beBytes n (v % 256 ^ j) from rfl]
      have hz : (v % 256 ^ j) >>> (8 * n) = 0 := by
        rw [Nat.shiftRight_eq_div_pow]
        apply Nat.div_eq_of_lt
        calc v % 256 ^ j < 256 ^ j :=
              Nat.mod_lt _ (Nat.pos_pow_of_pos _ (by norm_num))
          _ ≤ 256 ^ n := Nat.pow_le_pow_right (by norm_num) hjn
          _ = 2 ^ (8 * n) := pow256_eq n
      rw [hz, ih hjn, show n + 1 - j = (n - j) + 1 by omega]
      simp [List.replicate_succ]

/-! The claims. -/

/-- C2: for every core, ciphertext, associated data and expected tag, and for
both rates, `decrypt_inplace` returns `AuthenticationFailure` exactly when the
recomputed tag (final `x3` and `x4`, each serialized big-endian) differs from
the expected tag, and returns success exactly when they are equal. -/
theorem c2_auth_result_iff_tag_match (c : Core) (ct ad etag : List Nat) :
    (((decryptInplace8 c ct ad etag).2 = Except.error AsconError.authenticationFailure
        ↔ decryptTag8 c ct ad ≠ etag) ∧
      ((decryptInplace8 c ct ad etag).2 = Except.ok ()
        ↔ decryptTag8 c ct ad = etag)) ∧
    (((decryptInplace16 c ct ad etag).2 = Except.error AsconError.authenticationFailure
        ↔ decryptTag16 c ct ad ≠ etag) ∧
      ((decryptInplace16 c ct ad etag).2 = Except.ok ()
        ↔ decryptTag16 c ct ad = etag)) :=
  ⟨⟨(tag_compare_iff (decryptTag8 c ct ad) etag).1,
      (tag_compare_iff (decryptTag8 c ct ad) etag).2⟩,
    ⟨(tag_compare_iff (decryptTag16 c ct ad) etag).1,
      (tag_compare_iff (decryptTag16 c ct ad) etag).2⟩⟩

/-- C3: the source round function coincides with the specification's
reference definition of the round (s-box input mixing, `t` words with indices
mod 5, the three `t` XORs, the two-rotation linear layer, `x2` inverted). -/
theorem c3_round_eq_specRound (s : AState) (c : Nat) : round s c = specRound s c := rfl

/-- C4: the 12-round permutation applies the constants
`0xf0 ... 0x4b` in order, the 8- and 6-round permutations apply exactly the
last 8 and last 6 of them, the intermediate permutation dispatches to 6 rounds
at rate 8 and 8 rounds at rate 16, and construction and finalization each use
the 12-round permutation. -/
theorem c4_round_schedules_and_dispatch :
    (∀ s : AState, permute12 s = List.foldl round s roundConstants) ∧
    (∀ s : AState, permute8 s = List.foldl round s (roundConstants.drop 4)) ∧
    (∀ s : AState, permute6 s = List.foldl round s (roundConstants.drop 6)) ∧
    (∀ s : AState, permute 8 s = permute6 s) ∧
    (∀ s : AState, permute 16 s = permute8 s) ∧
    (∀ (iv : Nat) (key nonce : List Nat), ∃ t : AState,
      t = permute12
          { x0 := iv
            x1 := beWord (key.take 8)
            x2 := beWord (key.drop 8)
            x3 := beWord (nonce.take 8)
            x4 := beWord (nonce.drop 8) } ∧
      Core.new iv key nonce =
        { state := { t with
            x3 := t.x3 ^^^ beWord (key.take 8)
            x4 := t.x4 ^^^ beWord (key.drop 8) }
          key1 := beWord (key.take 8)
          key2 := beWord (key.drop 8) }) ∧
    (∀ (count : Nat) (c : Core), ∃ t : AState,
      t = permute12
          (if count = 8 then
            { c.state with x1 := c.state.x1 ^^^ c.key1, x2 := c.state.x2 ^^^ c.key2 }
          else if count = 16 then
            { c.state with x2 := c.state.x2 ^^^ c.key1, x3 := c.state.x3 ^^^ c.key2 }
          else c.state) ∧
      processFinal count c = { t with x3 := t.x3 ^^^ c.key1, x4 := t.x4 ^^^ c.key2 }) :=
  ⟨fun _ => rfl, fun _ => rfl, fun _ => rfl, fun _ => rfl, fun _ => rfl,
    fun _ _ _ => ⟨_, rfl, rfl⟩, fun _ _ => ⟨_, rfl, rfl⟩⟩

/-- C5: finalization XORs `key1` into `x1` and `key2` into `x2` at rate 8,
`key1` into `x2` and `key2` into `x3` at rate 16, applies the 12-round
permutation, then XORs `key1` into `x3` and `key2` into `x4`. -/
theorem c5_finalize_key_injection (c : Core) :
    (processFinal 8 c =
      (let t := permute12
        { c.state with x1 := c.state.x1 ^^^ c.key1, x2 := c.state.x2 ^^^ c.key2 }
       { t with x3 := t.x3 ^^^ c.key1, x4 := t.x4 ^^^ c.key2 })) ∧
    (processFinal 16 c =
      (let t := permute12
        { c.state with x2 := c.state.x2 ^^^ c.key1, x3 := c.state.x3 ^^^ c.key2 }
       { t with x3 := t.x3 ^^^ c.key1, x4 := t.x4 ^^^ c.key2 })) :=
  ⟨rfl, rfl⟩

/-- C6: associated-data absorption always ends by XORing 1 into `x4`, and on
empty associated data that XOR is the only change to the state (no padding
block is absorbed and no permutation runs), for both rates. -/
theorem c6_domain_separation :
    (∀ s : AState, processAssociatedData8 s [] = { s with x4 := s.x4 ^^^ 1 }) ∧
    (∀ s : AState, processAssociatedData16 s [] = { s with x4 := s.x4 ^^^ 1 }) ∧
    (∀ (s : AState) (ad : List Nat), ∃ t : AState,
      processAssociatedData8 s ad = { t with x4 := t.x4 ^^^ 1 }) ∧
    (∀ (s : AState) (ad : List Nat), ∃ t : AState,
      processAssociatedData16 s ad = { t with x4 := t.x4 ^^^ 1 }) :=
  ⟨fun _ => rfl, fun _ => rfl,
    fun s ad => ⟨if 0 < ad.length then adBlocks8 s ad else s, rfl⟩,
    fun s ad => ⟨if 0 < ad.length then adBlocks16 s ad else s, rfl⟩⟩

/-- Counterexample to C7 as stated: at `word = 0x0123456789abcdef`, `n = 1`,
`clear` keeps the bottom 7 bytes (`0x23456789abcdef`), not the bottom 1 byte
(`0xef`); keeping the bottom `n` bytes of the big-endian word would mean
`clear word n = word % 2 ^ (8 * n)`, which is false here. -/
theorem c7_counterexample :
    clear 0x0123456789abcdef 1 = 0x23456789abcdef ∧
    0x0123456789abcdef % 2 ^ (8 * 1) = 0xef ∧
    clear 0x0123456789abcdef 1 ≠ 0x0123456789abcdef % 2 ^ (8 * 1) := by
  refine ⟨by decide, by decide, by decide⟩

/-- C7 (amended): for every 64-bit word and `1 ≤ n ≤ 7`, `clear word n`
zeroes the top `n` bytes of the big-endian word, keeping the bottom `8 - n`
bytes unchanged: numerically it equals `word % 2 ^ ((8 - n) * 8)`, and its
big-endian serialization is `n` zero bytes followed by the last `8 - n` bytes
of the original word. -/
theorem c7_clear_zeroes_top_bytes (w n : Nat) (hw : w < 2 ^ 64)
    (h1 : 1 ≤ n) (h7 : n ≤ 7) :
    clear w n = w % 2 ^ ((8 - n) * 8) ∧
    beBytes 8 (clear w n) = List.replicate n 0 ++ (beBytes 8 w).drop n := by
  have hc := clear_eq_mod (w := w) h1 h7
  refine ⟨hc, ?_⟩
  rw [hc, show (2 : Nat) ^ ((8 - n) * 8) = 256 ^ (8 - n) by
      rw [pow256_eq, Nat.mul_comm]]
  rw [beBytes_mod_pow (8 - n) 8 w (by omega), beBytes_drop]
  congr 2
  omega

/-- Witness for the amended C7 at `word = 0x0123456789abcdef`, `n = 2`. -/
theorem c7_clear_zeroes_top_bytes_witness :
    (0x0123456789abcdef : Nat) < 2 ^ 64 ∧ 1 ≤ 2 ∧ 2 ≤ 7 ∧
    (clear 0x0123456789abcdef 2 = 0x0123456789abcdef % 2 ^ ((8 - 2) * 8) ∧
      beBytes 8 (clear 0x0123456789abcdef 2)
        = List.replicate 2 0 ++ (beBytes 8 0x0123456789abcdef).drop 2) :=
  ⟨by decide, by decide, by decide,
    c7_clear_zeroes_top_bytes 0x0123456789abcdef 2 (by decide) (by decide) (by decide)⟩

/-- C8: the buffer contents produced by `decrypt_inplace` do not depend on the
expected tag: any two expected tags leave byte-for-byte identical buffers, and
those buffers hold the candidate plaintext computed before the comparison,
for both rates. -/
theorem c8_buffer_ignores_expected_tag (c : Core) (ct ad t1 t2 : List Nat) :
    ((decryptInplace8 c ct ad t1).1 = (decryptInplace8 c ct ad t2).1 ∧
      (decryptInplace8 c ct ad t1).1
        = (processDecryptInplace8 (processAssociatedData8 c.state ad) ct).2) ∧
    ((decryptInplace16 c ct ad t1).1 = (decryptInplace16 c ct ad t2).1 ∧
      (decryptInplace16 c ct ad t1).1
        = (processDecryptInplace16 (processAssociatedData16 c.state ad) ct).2) :=
  ⟨⟨rfl, rfl⟩, ⟨rfl, rfl⟩⟩

/-- C10: with the panicking `usize` subtractions inside `pad` and `clear` made
explicit (`none` models an underflow panic), associated-data absorption,
in-place encryption and in-place decryption always succeed and agree with the
total functions, for both rates and all inputs: no shift-amount subtraction
ever underflows. -/
theorem c10_no_shift_underflow (s : AState) (ad m ct : List Nat) :
    processAssociatedData8Chk s ad = some (processAssociatedData8 s ad) ∧
    processAssociatedData16Chk s ad = some (processAssociatedData16 s ad) ∧
    processEncryptInplace8Chk s m = some (processEncryptInplace8 s m) ∧
    processEncryptInplace16Chk s m = some (processEncryptInplace16 s m) ∧
    processDecryptInplace8Chk s ct = some (processDecryptInplace8 s ct) ∧
    processDecryptInplace16Chk s ct = some (processDecryptInplace16 s ct) :=
  ⟨processAD8Chk_eq s ad, processAD16Chk_eq s ad, encI8Chk_eq m s,
    encI16Chk_eq m s, decI8Chk_eq ct s, decI16Chk_eq ct s⟩

end Ascon
